import Mathlib

/-!
# Verification of the C/C++ static-analysis engine

Shallow embedding of the graph-construction and resolution engine of the
repository (`scripts/cdep_analyzer.py`, `scripts/analyze_deps.py`,
`scripts/func_scanning.py`, `analyzer/codebase_reviewer.py`) together with
proofs of the specified properties.

Conventions:
* Python strings are modelled as `String` / `List Char`.
* Python `dict` accumulators are modelled as pointwise-updated functions.
* Python `set` values are modelled as duplicate-free lists with
  membership-guarded insertion (`insertD`); only membership and cardinality
  of these sets are ever observed, so insertion order is immaterial.
* File-system paths are modelled in their `'/'`-split component form:
  the string `"a/b"` is the list `["a", "b"]`, `""` is `[""]`, `"/x"` is
  `["", "x"]`.  This representation is in bijection with path strings
  (`String.intercalate "/"` inverts splitting on `'/'`).
-/

namespace CAnalyzer

/-- Python `set.add` on a list-represented set: append when absent. -/
def insertD {α : Type} [DecidableEq α] (l : List α) (x : α) : List α :=
  if x ∈ l then l else l ++ [x]

theorem insertD_nodup {α : Type} [DecidableEq α] (l : List α) (x : α)
    (h : l.Nodup) : (insertD l x).Nodup := by
  unfold insertD
  split
  · exact h
  · next hx =>
    rw [List.nodup_append]
    refine ⟨h, List.nodup_singleton x, ?_⟩
    intro a ha hb
    simp only [List.mem_singleton] at hb
    exact hx (hb ▸ ha)

theorem mem_insertD {α : Type} [DecidableEq α] (l : List α) (x y : α) :
    y ∈ insertD l x ↔ y ∈ l ∨ y = x := by
  unfold insertD
  split
  · next hx =>
    constructor
    · exact fun h => Or.inl h
    · rintro (h | rfl)
      · exact h
      · exact hx
  · simp

/-! ## Instability metric (`scripts/analyze_deps.py`)

`layer_deps` is a mapping from source layer to the set of target layers it
depends on.  The script computes, for every layer,
`fan_out[src] = len(targets)` and `fan_in[tgt] += 1` once per source whose
target set contains `tgt`, and then
`instability = fo / total if total > 0 else 0.0`.
The real-valued division is modelled exactly over `ℚ`. -/

/-- The layer dependency graph: association list from a source layer to its
(duplicate-free) list of target layers, in insertion order. -/
abbrev LayerGraph := List (String × List String)

/-- `fan_out[src] = len(targets)` (0 when the layer is not a key,
matching `fan_out.get(layer, 0)` on the `defaultdict`). -/
def fanOut (g : LayerGraph) (layer : String) : Nat :=
  ((g.lookup layer).getD []).length

/-- `fan_in[tgt] += 1` executed once for every source whose target set
contains `tgt`. -/
def fanIn (g : LayerGraph) (layer : String) : Nat :=
  (g.filter (fun p => layer ∈ p.2)).length

/-- `instability = fo / total if total > 0 else 0.0`, with the Python float
division modelled exactly as rational division. -/
def instability (fi fo : Nat) : ℚ :=
  if 0 < fi + fo then (fo : ℚ) / ((fi : ℚ) + (fo : ℚ)) else 0

/-- Instability of a layer of the graph. -/
def instabilityOf (g : LayerGraph) (layer : String) : ℚ :=
  instability (fanIn g layer) (fanOut g layer)

/-- C9: for every node of every layer graph,
`0 ≤ instability ≤ 1`, and a node whose fan-in and fan-out are both 0 has
instability exactly 0. -/
theorem instability_bounds (g : LayerGraph) (layer : String) :
    0 ≤ instabilityOf g layer ∧ instabilityOf g layer ≤ 1 ∧
      (fanIn g layer = 0 → fanOut g layer = 0 → instabilityOf g layer = 0) := by
  unfold instabilityOf instability
  generalize fanIn g layer = fi
  generalize fanOut g layer = fo
  refine ⟨?_, ?_, ?_⟩
  · split
    · positivity
    · exact le_refl 0
  · split
    · next hpos =>
      have hden : (0 : ℚ) < (fi : ℚ) + (fo : ℚ) := by
        exact_mod_cast hpos
      rw [div_le_one hden]
      have hfi : (0 : ℚ) ≤ (fi : ℚ) := by positivity
      linarith
    · exact zero_le_one
  · intro h1 h2
    simp only [h1, h2]
    norm_num

/-- Witness for C9 at a concrete graph: the `utils` layer of the one-edge
graph `core → utils` has no outgoing edges, fan-in 1; the isolated layer
`main` has fan-in and fan-out 0 and instability 0. -/
theorem instability_bounds_witness :
    fanIn [("core", ["utils"])] "main" = 0 ∧
      fanOut [("core", ["utils"])] "main" = 0 ∧
      instabilityOf [("core", ["utils"])] "main" = 0 := by
  refine ⟨by decide, by decide, ?_⟩
  exact (instability_bounds [("core", ["utils"])] "main").2.2 (by decide) (by decide)

/-! ## Enum usage counting (`analyzer/codebase_reviewer.py`, `_scan_usage`)

For every scanned file and every known enum name the scanner runs
`if re.search(r'\b' + name + r'\b', content): enum_usage[name][file]['refs'] += 1`.
The word-boundary search is modelled by `containsWord`; the
`defaultdict` of counters is modelled by a function initialised to 0. -/

/-- Python `\w` on the ASCII text handled by the tool. -/
def isWordChar (c : Char) : Bool :=
  c.isAlpha || c.isDigit || c = '_'

/-- Does `nm` occur in the text starting exactly at its head, with a word
boundary after the occurrence? -/
def wordHere (nm : List Char) (cs : List Char) : Bool :=
  nm.isPrefixOf cs &&
    (match cs.drop nm.length with
     | [] => true
     | d :: _ => !isWordChar d)

/-- `re.search(r'\b name \b', content)`: scan every position, requiring a
word boundary before and after the occurrence.  `prevWord` records whether
the character before the current position is a word character. -/
def containsWordAux (nm : List Char) : Bool → List Char → Bool
  | _, [] => false
  | prevWord, c :: rest =>
    (!prevWord && wordHere nm (c :: rest)) || containsWordAux nm (isWordChar c) rest

/-- Whole-text word-boundary search used for enum usage. -/
def containsWord (nm content : String) : Bool :=
  containsWordAux nm.toList false content.toList

/-- Reference counters: `(enum name, file) → refs`. -/
abbrev EnumUsage := String → String → Nat

/-- Process one file of the usage scan: for every known enum name, bump the
`(name, file)` counter when the word-boundary search succeeds. -/
def scanEnumFile (enumNames : List String) (m : EnumUsage)
    (path content : String) : EnumUsage :=
  enumNames.foldl
    (fun m' nm =>
      if containsWord nm content then
        fun e f => if e = nm ∧ f = path then m' e f + 1 else m' e f
      else m')
    m

/-- The enum part of `_scan_usage`: iterate over the scanned files (given as
`(rel_path, content)` pairs), starting from the all-zero `defaultdict`. -/
def scanEnumUsage (enumNames : List String) (files : List (String × String)) :
    EnumUsage :=
  files.foldl (fun m f => scanEnumFile enumNames m f.1 f.2) (fun _ _ => 0)

theorem scanEnumFile_val (enumNames : List String) (m : EnumUsage)
    (path content : String) (e f : String) (hnd : enumNames.Nodup) :
    scanEnumFile enumNames m path content e f =
      m e f + (if e ∈ enumNames ∧ f = path ∧ containsWord e content then 1 else 0) := by
  induction enumNames generalizing m with
  | nil => simp [scanEnumFile]
  | cons nm rest ih =>
    have hnd' : rest.Nodup := hnd.of_cons
    have hnot : nm ∉ rest := by
      intro hmem
      exact (List.nodup_cons.mp hnd).1 hmem
    show scanEnumFile rest _ path content e f = _
    rw [ih _ hnd']
    by_cases he : e = nm
    · subst he
      have hrest : e ∉ rest := hnot
      by_cases hfound : containsWord e content
      · by_cases hfp : f = path
        · simp [hfound, hfp, hrest]
        · simp [hfound, hfp, hrest]
      · simp [hfound, hrest]
    · by_cases hfound : containsWord nm content
      · simp only [hfound, if_true]
        have : (if e = nm ∧ f = path then m e f + 1 else m e f) = m e f := by
          simp [he]
        rw [this]
        by_cases hmem : e ∈ rest
        · simp [List.mem_cons, hmem, he]
        · simp [List.mem_cons, hmem, he]
      · simp only [hfound, if_false]
        by_cases hmem : e ∈ rest
        · simp [List.mem_cons, hmem, he]
        · simp [List.mem_cons, hmem, he]

theorem scanEnumFile_frame (enumNames : List String) (m : EnumUsage)
    (path content : String) (e f : String) (hf : f ≠ path) :
    scanEnumFile enumNames m path content e f = m e f := by
  induction enumNames generalizing m with
  | nil => rfl
  | cons nm rest ih =>
    show scanEnumFile rest _ path content e f = _
    rw [ih]
    by_cases hfound : containsWord nm content
    · simp [hfound, hf]
    · simp [hfound]

theorem scanEnumUsage_aux (enumNames : List String)
    (files : List (String × String)) (m : EnumUsage)
    (hnd : enumNames.Nodup)
    (hpaths : (files.map Prod.fst).Nodup)
    (hbound : ∀ e f, m e f ≤ 1)
    (hfresh : ∀ e f, f ∈ files.map Prod.fst → m e f = 0) :
    ∀ e f, files.foldl (fun m' g => scanEnumFile enumNames m' g.1 g.2) m e f ≤ 1 := by
  induction files generalizing m with
  | nil => exact hbound
  | cons g rest ih =>
    simp only [List.foldl_cons]
    rw [List.map_cons] at hpaths
    have hpaths' : (rest.map Prod.fst).Nodup := (List.nodup_cons.mp hpaths).2
    have hgnotin : g.1 ∉ rest.map Prod.fst := (List.nodup_cons.mp hpaths).1
    refine ih _ hpaths' ?_ ?_
    · intro e f
      by_cases hf : f = g.1
      · rw [scanEnumFile_val enumNames m g.1 g.2 e f hnd]
        have h0 : m e f = 0 := hfresh e f (by simp [hf])
        rw [h0]
        split <;> omega
      · rw [scanEnumFile_frame enumNames m g.1 g.2 e f hf]
        exact hbound e f
    · intro e f hfmem
      have hf : f ≠ g.1 := by
        intro heq
        exact hgnotin (heq ▸ hfmem)
      rw [scanEnumFile_frame enumNames m g.1 g.2 e f hf]
      exact hfresh e f (by simp [hfmem])

/-- C10: after the usage-scanning phase, every `(enum, file)` reference
count is 0 or 1, however often the enum name occurs in the file's text.
The enum-name set and the scanned-file dictionary are duplicate-free, which
is what the `Nodup` hypotheses record. -/
theorem enum_refs_zero_or_one (enumNames : List String)
    (files : List (String × String)) (e f : String)
    (hnd : enumNames.Nodup) (hpaths : (files.map Prod.fst).Nodup) :
    scanEnumUsage enumNames files e f = 0 ∨ scanEnumUsage enumNames files e f = 1 := by
  have h : scanEnumUsage enumNames files e f ≤ 1 :=
    scanEnumUsage_aux enumNames files (fun _ _ => 0) hnd hpaths
      (fun _ _ => Nat.zero_le 1) (fun _ _ _ => rfl) e f
  omega

/-- Witness for C10: one enum `Color` named three times in one file still
yields a reference count of at most one. -/
theorem enum_refs_zero_or_one_witness :
    scanEnumUsage ["Color"] [("a.c", "Color x; Color y = (Color)0;")] "Color" "a.c" = 0 ∨
      scanEnumUsage ["Color"] [("a.c", "Color x; Color y = (Color)0;")] "Color" "a.c" = 1 :=
  enum_refs_zero_or_one ["Color"] [("a.c", "Color x; Color y = (Color)0;")]
    "Color" "a.c" (by decide) (by decide)

/-! ## Paths and include resolution (`scripts/cdep_analyzer.py`)

Paths are handled in component form (split on `'/'`).  The helpers below
model `os.path.basename`, `os.path.join` and `os.path.normpath` (POSIX) on
that representation. -/

/-- A path in `'/'`-component form. -/
abbrev Path := List String

/-- `os.path.basename`: the text after the last `'/'` (the last component). -/
def basenameP (p : Path) : String :=
  p.getLast?.getD ""

/-- `os.path.dirname` on the normalized relative paths produced by the
directory walk (no empty components): everything before the last `'/'`. -/
def dirnameP (p : Path) : Path :=
  p.dropLast

/-- `os.path.join(d, q)` for a nonempty include path `q`: an absolute `q`
(leading `'/'`, i.e. leading empty component) replaces `d`; an empty `d`
yields `q`; a `d` ending in `'/'` is concatenated without a separator;
otherwise a `'/'` separates the two parts. -/
def joinP (d q : Path) : Path :=
  if q.head? = some "" ∧ q ≠ [""] then q
  else if d = [] ∨ d = [""] then q
  else if d.getLast? = some "" then d.dropLast ++ q
  else d ++ q

/-- The component loop of `posixpath.normpath`, over the reversed
accumulator (`acc.head?` is `new_comps[-1]`): empty and `"."` components
are dropped; `".."` pops the accumulator except at the (relative) start or
after another `".."`. -/
def normLoop (isAbs : Bool) : List String → List String → List String
  | acc, [] => acc
  | acc, c :: rest =>
    if c = "" ∨ c = "." then normLoop isAbs acc rest
    else if c ≠ ".." ∨ (¬isAbs ∧ acc = []) ∨ acc.head? = some ".." then
      normLoop isAbs (c :: acc) rest
    else
      match acc with
      | _ :: accTail => normLoop isAbs accTail rest
      | [] => normLoop isAbs acc rest

/-- `initial_slashes` of `posixpath.normpath`: 2 for the special POSIX
double slash, 1 for other absolute paths, else 0.  In component form a
leading slash is a leading empty component. -/
def initialSlashes (p : Path) : Nat :=
  if p.take 2 = ["", ""] ∧ ¬p.take 3 = ["", "", ""] then 2
  else if p.head? = some "" then 1 else 0

/-- `posixpath.normpath` in component form: run the component loop, then
reassemble `'/'*initial_slashes + '/'.join(new_comps)`, with `"."` for an
empty relative result (Python's `return path or '.'`; the empty string
input also normalizes to `"."`). -/
def normpathP (p : Path) : Path :=
  if p = [""] then ["."]
  else if (normLoop (initialSlashes p > 0) [] p).reverse = [] then
    (if initialSlashes p = 0 then ["."]
     else List.replicate (initialSlashes p + 1) "")
  else List.replicate (initialSlashes p) "" ++ (normLoop (initialSlashes p > 0) [] p).reverse

/-- One raw `#include` of a file: the path as written (component form) and
the bracket kind (`is_system` ⟺ angle brackets). -/
structure RawInclude where
  path : Path
  is_system : Bool
deriving DecidableEq, Repr

/-- A scanned file: its path relative to the project root, and its parsed
raw includes, in textual order. -/
structure FileRec where
  rel_path : Path
  raw_includes : List RawInclude
deriving DecidableEq, Repr

/-- `_resolve_dependencies`, single include: the three resolution tiers in
source order.  `files` is the list of scanned `rel_path`s in discovery
order; `fileDir` is the including file's directory. -/
def basenameCandidates (files : List Path) (incPath : Path) : List Path :=
  files.filter (fun f => basenameP f = basenameP incPath)

/-- Python `c.endswith(inc_path)` on the `'/'`-joined path strings. -/
def suffixMatch (incPath c : Path) : Bool :=
  (String.intercalate "/" c).endsWith (String.intercalate "/" incPath)

/-- Tier 3: basename lookup with the suffix-match tie-break and
first-candidate fallback. -/
def basenameLookup (files : List Path) (incPath : Path) : Option Path :=
  match basenameCandidates files incPath with
  | [] => none
  | [c] => some c
  | c0 :: c1 :: t =>
    match (c0 :: c1 :: t).find? (suffixMatch incPath) with
    | some c => some c
    | none => some c0

def resolveInclude (files : List Path) (fileDir : Path) (incPath : Path) :
    Option Path :=
  -- 1. Relative to current file
  if normpathP (joinP fileDir incPath) ∈ files then
    some (normpathP (joinP fileDir incPath))
  -- 2. From project root
  else if incPath ∈ files then some incPath
  -- 3. By filename match
  else basenameLookup files incPath

theorem normLoop_append_plain (isAbs : Bool) (b : String)
    (hb1 : ¬(b = "" ∨ b = ".")) (hb2 : b ≠ "..") :
    ∀ (l : List String) (acc : List String),
      normLoop isAbs acc (l ++ [b]) = b :: normLoop isAbs acc l := by
  intro l
  induction l with
  | nil =>
    intro acc
    simp only [List.nil_append]
    unfold normLoop
    rw [if_neg hb1, if_pos (Or.inl hb2)]
    rfl
  | cons c rest ih =>
    intro acc
    simp only [List.cons_append]
    unfold normLoop
    by_cases h1 : c = "" ∨ c = "."
    · rw [if_pos h1, if_pos h1, ih]
    · rw [if_neg h1, if_neg h1]
      by_cases h2 : c ≠ ".." ∨ (¬isAbs ∧ acc = []) ∨ acc.head? = some ".."
      · rw [if_pos h2, if_pos h2, ih]
      · rw [if_neg h2, if_neg h2]
        cases acc with
        | nil => exact ih []
        | cons a accTail => exact ih accTail

/-- The last component of a normalized path whose last input component is a
plain name (not `""`, `"."` or `".."`) is that very component. -/
theorem basenameP_normpathP (l : List String) (b : String)
    (hb1 : b ≠ "") (hb2 : b ≠ ".") (hb3 : b ≠ "..") :
    basenameP (normpathP (l ++ [b])) = b := by
  have hne : l ++ [b] ≠ [""] := by
    intro h
    cases l with
    | nil => simp at h; exact hb1 h
    | cons x xs =>
      have := congrArg List.length h
      simp at this
  unfold normpathP
  rw [if_neg hne]
  rw [normLoop_append_plain _ b (by simp [hb1, hb2]) hb3]
  simp only [List.reverse_cons]
  rw [if_neg (by simp : ¬((normLoop (initialSlashes (l ++ [b]) > 0) [] l).reverse ++ [b] = []))]
  unfold basenameP
  rw [← List.append_assoc, List.getLast?_append_of_ne_nil _ (by simp : [b] ≠ [])]
  rfl

theorem getLast?_joinP (d q : Path) (hq : q ≠ []) :
    (joinP d q).getLast? = q.getLast? := by
  unfold joinP
  split
  · rfl
  · split
    · rfl
    · split
      · exact List.getLast?_append_of_ne_nil _ hq
      · exact List.getLast?_append_of_ne_nil _ hq

theorem filter_eq_single {α : Type} [DecidableEq α] (P : α → Bool)
    (l : List α) (f : α) (hnd : l.Nodup) (hf : f ∈ l) (hPf : P f = true)
    (huniq : ∀ g ∈ l, P g = true → g = f) :
    l.filter P = [f] := by
  induction l with
  | nil => cases hf
  | cons x rest ih =>
    have hnd' : rest.Nodup := hnd.of_cons
    have hxnotin : x ∉ rest := (List.nodup_cons.mp hnd).1
    by_cases hPx : P x = true
    · have hxf : x = f := huniq x (List.mem_cons_self _ _) hPx
      rw [List.filter_cons_of_pos hPx, hxf]
      have hrest : rest.filter P = [] := by
        rw [List.filter_eq_nil_iff]
        intro g hg hPg
        have : g = f := huniq g (List.mem_cons_of_mem x hg) hPg
        rw [this, ← hxf] at hg
        exact hxnotin hg
      rw [hrest]
    · rw [List.filter_cons_of_neg hPx]
      have hfx : f ≠ x := by
        intro h
        rw [h] at hPf
        exact hPx hPf
      have hf' : f ∈ rest := by
        rcases List.mem_cons.mp hf with h | h
        · exact absurd h hfx
        · exact h
      exact ih hnd' hf' (fun g hg hPg => huniq g (List.mem_cons_of_mem x hg) hPg)

theorem basenameP_eq_getLast (p : Path) (hp : p ≠ []) :
    p.getLast? = some (basenameP p) := by
  unfold basenameP
  rw [List.getLast?_eq_getLast_of_ne_nil hp]
  rfl

/-- C4: an include whose basename is unique among the scanned files always
resolves to that unique file, whatever directory issues the include and
whatever path prefix the include carries (and independently of the bracket
kind, which `_resolve_dependencies` never consults).  The well-formedness
hypotheses record what the directory walk guarantees: the scanned paths
are distinct, and the matched basename is a real file name (not `""`,
`"."` or `".."`). -/
theorem unique_basename_resolves (files : List Path) (dir inc f : Path)
    (hnd : files.Nodup) (hinc : inc ≠ [])
    (hb1 : basenameP inc ≠ "") (hb2 : basenameP inc ≠ ".")
    (hb3 : basenameP inc ≠ "..")
    (hf : f ∈ files) (hfb : basenameP f = basenameP inc)
    (huniq : ∀ g ∈ files, basenameP g = basenameP inc → g = f) :
    resolveInclude files dir inc = some f := by
  have hsplit : inc.dropLast ++ [basenameP inc] = inc := by
    have := basenameP_eq_getLast inc hinc
    exact List.dropLast_append_getLast? _ this
  unfold resolveInclude
  by_cases h1 : normpathP (joinP dir inc) ∈ files
  · rw [if_pos h1]
    have hcb : basenameP (normpathP (joinP dir inc)) = basenameP inc := by
      have hjoin : (joinP dir inc).getLast? = inc.getLast? := getLast?_joinP dir inc hinc
      have : joinP dir inc = (joinP dir inc).dropLast ++ [basenameP inc] := by
        refine (List.dropLast_append_getLast? _ ?_).symm
        rw [hjoin]
        exact basenameP_eq_getLast inc hinc
      rw [this]
      exact basenameP_normpathP _ _ hb1 hb2 hb3
    rw [huniq _ h1 hcb]
  · rw [if_neg h1]
    by_cases h2 : inc ∈ files
    · rw [if_pos h2]
      rw [huniq _ h2 rfl]
    · rw [if_neg h2]
      unfold basenameLookup
      have hcand : basenameCandidates files inc = [f] := by
        unfold basenameCandidates
        exact filter_eq_single _ files f hnd hf (by simp [hfb])
          (fun g hg hPg => huniq g hg (by simpa using hPg))
      rw [hcand]

/-- Witness for C4: `sub/y.h` is the only scanned file named `y.h`; a file
in the unrelated directory `other` including plain `"y.h"` resolves to it
through the basename tier. -/
theorem unique_basename_resolves_witness :
    resolveInclude [["a.c"], ["sub", "y.h"]] ["other"] ["y.h"]
      = some ["sub", "y.h"] :=
  unique_basename_resolves [["a.c"], ["sub", "y.h"]] ["other"] ["y.h"]
    ["sub", "y.h"] (by decide) (by decide) (by decide) (by decide) (by decide)
    (by decide) (by decide) (by decide)

/-- Modelled from the spec's wording of resolution tier 1: "Path
normalized relative to the including file's own directory; accepted if it
names a file in the scanned set." -/
def specTierRelative (files : List Path) (dir inc : Path) : Option Path :=
  if normpathP (joinP dir inc) ∈ files then some (normpathP (joinP dir inc)) else none

/-- Modelled from the spec's wording of resolution tier 2: "Path taken
literally relative to the project root; accepted under the same
condition." -/
def specTierRoot (files : List Path) (inc : Path) : Option Path :=
  if inc ∈ files then some inc else none

/-- Modelled from the spec's wording of resolution tier 3: "if exactly one
scanned file shares the include's basename, use it.  If multiple share it,
prefer one whose full relative path ends with the exact include path
string (suffix match); if none match that way, deterministically pick the
first candidate in file-discovery order." -/
def specTierBasename (files : List Path) (inc : Path) : Option Path :=
  if (basenameCandidates files inc).length = 1 then
    (basenameCandidates files inc).head?
  else if 2 ≤ (basenameCandidates files inc).length then
    match (basenameCandidates files inc).find? (suffixMatch inc) with
    | some c => some c
    | none => (basenameCandidates files inc).head?
  else none

/-- Modelled from the spec: "resolution is attempted in strict priority
order, first match wins". -/
def specResolve (files : List Path) (dir inc : Path) : Option Path :=
  match specTierRelative files dir inc with
  | some r => some r
  | none =>
    match specTierRoot files inc with
    | some r => some r
    | none => specTierBasename files inc

/-- C5: the implemented resolution agrees with the spec's three-tier,
first-match-wins description on every input. -/
theorem resolveInclude_eq_specResolve (files : List Path) (dir inc : Path) :
    resolveInclude files dir inc = specResolve files dir inc := by
  unfold resolveInclude specResolve specTierRelative specTierRoot specTierBasename
  by_cases h1 : normpathP (joinP dir inc) ∈ files
  · rw [if_pos h1, if_pos h1]
  · rw [if_neg h1, if_neg h1]
    by_cases h2 : inc ∈ files
    · rw [if_pos h2, if_pos h2]
    · rw [if_neg h2, if_neg h2]
      unfold basenameLookup
      split
      · next heq => rw [heq]; rfl
      · next c heq => rw [heq]; rfl
      · next c0 c1 t heq =>
        rw [heq]
        rw [if_neg (by simp : ¬((c0 :: c1 :: t).length = 1)),
          if_pos (by simp : 2 ≤ (c0 :: c1 :: t).length)]
        cases (c0 :: c1 :: t).find? (suffixMatch inc) <;> rfl

/-- The scanner's edge storage: `dependencies`, `reverse_deps` and
`unresolved` are `defaultdict(set)`s, modelled as functions into
duplicate-free lists. -/
structure DepState where
  dependencies : Path → List Path
  reverse_deps : Path → List Path
  unresolved : Path → List Path

/-- The empty storage (`defaultdict(set)` defaults). -/
def DepState.empty : DepState :=
  { dependencies := fun _ => [], reverse_deps := fun _ => [], unresolved := fun _ => [] }

/-- The body of the inner loop of `_resolve_dependencies`: resolve one raw
include of the file `relPath`; on success add the edge and its mirror
reverse edge, on failure record a local include as unresolved and drop a
system include silently. -/
def processInclude (files : List Path) (st : DepState) (relPath fileDir : Path)
    (inc : RawInclude) : DepState :=
  match resolveInclude files fileDir inc.path with
  | some resolved =>
    { st with
      dependencies := fun k =>
        if k = relPath then insertD (st.dependencies k) resolved else st.dependencies k
      reverse_deps := fun k =>
        if k = resolved then insertD (st.reverse_deps k) relPath else st.reverse_deps k }
  | none =>
    if inc.is_system then st
    else
      { st with
        unresolved := fun k =>
          if k = relPath then insertD (st.unresolved k) inc.path else st.unresolved k }

/-- Process every raw include of one file (`file_dir = os.path.dirname(rel_path)`). -/
def processFile (files : List Path) (st : DepState) (fr : FileRec) : DepState :=
  fr.raw_includes.foldl
    (fun st' inc => processInclude files st' fr.rel_path (dirnameP fr.rel_path) inc) st

/-- `_resolve_dependencies`: iterate over all scanned files. -/
def resolveDeps (frs : List FileRec) : DepState :=
  frs.foldl (processFile (frs.map (·.rel_path))) DepState.empty

theorem foldl_invariant {α β : Type} (P : β → Prop) (step : β → α → β)
    (init : β) (l : List α) (h0 : P init)
    (hstep : ∀ st x, P st → P (step st x)) : P (l.foldl step init) := by
  induction l generalizing init with
  | nil => exact h0
  | cons x rest ih => exact ih (step init x) (hstep init x h0)

theorem basenameLookup_mem (files : List Path) (incPath : Path)
    (r : Path) (h : basenameLookup files incPath = some r) : r ∈ files := by
  unfold basenameLookup at h
  have hsub : ∀ x, x ∈ basenameCandidates files incPath → x ∈ files := by
    intro x hx
    exact List.mem_of_mem_filter hx
  split at h
  · exact absurd h (by simp)
  · next c heq =>
    refine hsub r ?_
    rw [heq, Option.some_inj.mp h]
    exact List.mem_singleton_self r
  · next c0 c1 t heq =>
    split at h
    · next c hfind =>
      have hcmem : c ∈ c0 :: c1 :: t := List.mem_of_find?_eq_some hfind
      refine hsub r ?_
      rw [heq, ← Option.some_inj.mp h]
      exact hcmem
    · refine hsub r ?_
      rw [heq, ← Option.some_inj.mp h]
      exact List.mem_cons_self c0 _

theorem resolveInclude_mem (files : List Path) (fileDir incPath : Path)
    (r : Path) (h : resolveInclude files fileDir incPath = some r) : r ∈ files := by
  unfold resolveInclude at h
  split at h
  · next hc => exact (Option.some_inj.mp h) ▸ hc
  · split at h
    · next hc => exact (Option.some_inj.mp h) ▸ hc
    · exact basenameLookup_mem files incPath r h

/-- The C8 invariant: symmetric edge maps, targets among the scanned files,
duplicate-free per-source edge sets. -/
def EdgeInvariant (files : List Path) (st : DepState) : Prop :=
  (∀ s t, t ∈ st.dependencies s ↔ s ∈ st.reverse_deps t) ∧
  (∀ s t, t ∈ st.dependencies s → t ∈ files) ∧
  (∀ s, (st.dependencies s).Nodup)

theorem processInclude_invariant (files : List Path) (st : DepState)
    (relPath fileDir : Path) (inc : RawInclude)
    (h : EdgeInvariant files st) :
    EdgeInvariant files (processInclude files st relPath fileDir inc) := by
  obtain ⟨hsym, hmem, hnd⟩ := h
  unfold processInclude
  split
  · next r hres =>
    have hr : r ∈ files := resolveInclude_mem files fileDir inc.path r hres
    refine ⟨?_, ?_, ?_⟩
    · intro s t
      by_cases hs : s = relPath <;> by_cases ht : t = r
      · simp [hs, ht, mem_insertD]
      · simp only [hs, ht, eq_self_iff_true, if_true, if_false, mem_insertD, or_false]
        exact hsym relPath t
      · simp only [hs, ht, eq_self_iff_true, if_true, if_false, mem_insertD, or_false]
        exact hsym s r
      · simp only [hs, ht, if_false]
        exact hsym s t
    · intro s t hmem'
      by_cases hs : s = relPath
      · simp only [hs, eq_self_iff_true, if_true, mem_insertD] at hmem'
        rcases hmem' with hold | rfl
        · exact hmem _ _ hold
        · exact hr
      · simp only [hs, if_false] at hmem'
        exact hmem _ _ hmem'
    · intro s
      by_cases hs : s = relPath
      · simp only [hs, eq_self_iff_true, if_true]
        exact insertD_nodup _ _ (hnd relPath)
      · simp only [hs, if_false]
        exact hnd s
  · split
    · exact ⟨hsym, hmem, hnd⟩
    · exact ⟨hsym, hmem, hnd⟩

/-- C8: after `_resolve_dependencies`, every dependency target is a scanned
file, the per-source dependency sets are duplicate-free, and the reverse
map is exactly symmetric: `t ∈ deps s ↔ s ∈ rev t`. -/
theorem resolve_edge_invariant (frs : List FileRec) (s t : Path) :
    (t ∈ (resolveDeps frs).dependencies s ↔ s ∈ (resolveDeps frs).reverse_deps t) ∧
    (t ∈ (resolveDeps frs).dependencies s → t ∈ frs.map (·.rel_path)) ∧
    ((resolveDeps frs).dependencies s).Nodup := by
  have h : EdgeInvariant (frs.map (·.rel_path)) (resolveDeps frs) := by
    unfold resolveDeps
    refine foldl_invariant _ _ _ _ ?_ ?_
    · refine ⟨fun s t => by simp [DepState.empty], fun s t h => by simp [DepState.empty] at h,
        fun s => by simp [DepState.empty]⟩
    · intro st fr hst
      unfold processFile
      refine foldl_invariant _ _ _ _ hst ?_
      intro st' inc hst'
      exact processInclude_invariant _ _ _ _ _ hst'
  exact ⟨h.1 s t, fun hm => h.2.1 s t hm, h.2.2 s⟩

theorem processInclude_frame (files : List Path) (st : DepState)
    (relPath fileDir : Path) (inc : RawInclude) (key : Path)
    (hk : key ≠ relPath) :
    (processInclude files st relPath fileDir inc).dependencies key
        = st.dependencies key ∧
      (processInclude files st relPath fileDir inc).unresolved key
        = st.unresolved key := by
  unfold processInclude
  split
  · exact ⟨by simp [hk], rfl⟩
  · split
    · exact ⟨rfl, rfl⟩
    · exact ⟨rfl, by simp [hk]⟩

theorem processFile_frame (files : List Path) (st : DepState) (fr : FileRec)
    (key : Path) (hk : key ≠ fr.rel_path) :
    (processFile files st fr).dependencies key = st.dependencies key ∧
      (processFile files st fr).unresolved key = st.unresolved key := by
  unfold processFile
  generalize fr.raw_includes = incs
  induction incs generalizing st with
  | nil => exact ⟨rfl, rfl⟩
  | cons inc rest ih =>
    simp only [List.foldl_cons]
    have hstep := processInclude_frame files st fr.rel_path (dirnameP fr.rel_path) inc key hk
    have hrest := ih (processInclude files st fr.rel_path (dirnameP fr.rel_path) inc)
    exact ⟨hrest.1.trans hstep.1, hrest.2.trans hstep.2⟩

theorem foldFiles_frame (names : List Path) (l : List FileRec) (st : DepState)
    (key : Path) :
    key ∉ l.map (·.rel_path) →
    (l.foldl (processFile names) st).dependencies key = st.dependencies key ∧
      (l.foldl (processFile names) st).unresolved key = st.unresolved key := by
  induction l generalizing st with
  | nil => exact fun _ => ⟨rfl, rfl⟩
  | cons fr rest ih =>
    intro hk
    simp only [List.map_cons, List.mem_cons] at hk
    push_neg at hk
    simp only [List.foldl_cons]
    have hstep := processFile_frame names st fr key hk.1
    have hrest := ih (processFile names st fr) hk.2
    exact ⟨hrest.1.trans hstep.1, hrest.2.trans hstep.2⟩

/-- C6: a single unresolvable include is non-fatal.  If a scanned file's
only raw include does not resolve, then after `_resolve_dependencies` the
file has no outgoing dependency edge; a local (quote) include is recorded
in the file's unresolved set, giving unresolved count 1, while a system
(angle) include is dropped silently, giving unresolved count 0. -/
theorem unresolved_include_nonfatal (frs : List FileRec) (fr : FileRec)
    (p : Path) (sys : Bool)
    (hmem : fr ∈ frs) (hnd : (frs.map (·.rel_path)).Nodup)
    (hincs : fr.raw_includes = [⟨p, sys⟩])
    (hres : resolveInclude (frs.map (·.rel_path)) (dirnameP fr.rel_path) p = none) :
    (resolveDeps frs).dependencies fr.rel_path = [] ∧
      (resolveDeps frs).unresolved fr.rel_path = (if sys then [] else [p]) ∧
      ((resolveDeps frs).unresolved fr.rel_path).length = (if sys then 0 else 1) := by
  obtain ⟨l₁, l₂, rfl⟩ := List.append_of_mem hmem
  have hnames : (l₁ ++ fr :: l₂).map (·.rel_path)
      = l₁.map (·.rel_path) ++ fr.rel_path :: l₂.map (·.rel_path) := by
    simp
  rw [hnames] at hnd
  rw [List.nodup_append] at hnd
  obtain ⟨_, hnd2, hdisj⟩ := hnd
  have hk1 : fr.rel_path ∉ l₁.map (·.rel_path) := by
    intro hx
    exact hdisj hx (List.mem_cons_self _ _)
  have hk2 : fr.rel_path ∉ l₂.map (·.rel_path) := (List.nodup_cons.mp hnd2).1
  set names := (l₁ ++ fr :: l₂).map (·.rel_path) with hnamesdef
  have hfold : resolveDeps (l₁ ++ fr :: l₂)
      = l₂.foldl (processFile names)
          (processFile names (l₁.foldl (processFile names) DepState.empty) fr) := by
    unfold resolveDeps
    rw [← hnamesdef, List.foldl_append, List.foldl_cons]
  have h1 := foldFiles_frame names l₁ DepState.empty fr.rel_path hk1
  set st1 := l₁.foldl (processFile names) DepState.empty with hst1
  have h1d : st1.dependencies fr.rel_path = [] := h1.1.trans rfl
  have h1u : st1.unresolved fr.rel_path = [] := h1.2.trans rfl
  have hstep : (processFile names st1 fr).dependencies fr.rel_path = [] ∧
      (processFile names st1 fr).unresolved fr.rel_path = (if sys then [] else [p]) := by
    unfold processFile
    rw [hincs]
    simp only [List.foldl_cons, List.foldl_nil]
    unfold processInclude
    rw [hres]
    cases sys with
    | true => exact ⟨h1d, h1u⟩
    | false => exact ⟨h1d, by simp [h1u, insertD]⟩
  have h2 := foldFiles_frame names l₂ (processFile names st1 fr) fr.rel_path hk2
  rw [hfold]
  refine ⟨h2.1.trans hstep.1, h2.2.trans hstep.2, ?_⟩
  rw [h2.2.trans hstep.2]
  cases sys <;> simp

/-- Witness for C6: a lone file `a.c` whose only include is the local
`"missing.h"` ends with no edge and unresolved count 1. -/
theorem unresolved_include_nonfatal_witness :
    (resolveDeps [⟨["a.c"], [⟨["missing.h"], false⟩]⟩]).dependencies ["a.c"] = [] ∧
      (resolveDeps [⟨["a.c"], [⟨["missing.h"], false⟩]⟩]).unresolved ["a.c"]
        = [["missing.h"]] ∧
      ((resolveDeps [⟨["a.c"], [⟨["missing.h"], false⟩]⟩]).unresolved ["a.c"]).length = 1 := by
  have h := unresolved_include_nonfatal [⟨["a.c"], [⟨["missing.h"], false⟩]⟩]
    ⟨["a.c"], [⟨["missing.h"], false⟩]⟩ ["missing.h"] false
    (List.mem_singleton_self _) (by decide) rfl (by decide)
  simpa using h

/-- Witness for C8 on a concrete two-file project: `b.c` includes `a.h`,
the edge exists, its mirror exists, and the target is scanned. -/
theorem resolve_edge_invariant_witness :
    ["a.h"] ∈ (resolveDeps [⟨["b.c"], [⟨["a.h"], false⟩]⟩, ⟨["a.h"], []⟩]).dependencies ["b.c"] ∧
    ["b.c"] ∈ (resolveDeps [⟨["b.c"], [⟨["a.h"], false⟩]⟩, ⟨["a.h"], []⟩]).reverse_deps ["a.h"] ∧
    ["a.h"] ∈ [⟨["b.c"], [⟨["a.h"], false⟩]⟩, (⟨["a.h"], []⟩ : FileRec)].map (·.rel_path) := by
  have hmem : ["a.h"] ∈ (resolveDeps [⟨["b.c"], [⟨["a.h"], false⟩]⟩, ⟨["a.h"], []⟩]).dependencies ["b.c"] := by
    decide
  have h := resolve_edge_invariant [⟨["b.c"], [⟨["a.h"], false⟩]⟩, ⟨["a.h"], []⟩] ["b.c"] ["a.h"]
  exact ⟨hmem, h.1.mp hmem, h.2.1 hmem⟩

/-! ## Lexical normalizer (`scripts/func_scanning.py`,
`_remove_comments_and_strings`)

The Python function is a single left-to-right scan over the text with
mutually exclusive states — normal, in-string, in-char and, via its two
inner `while` loops, in-line-comment and in-block-comment.  It is embedded
as a structurally recursive state machine over those five modes; `prev` is
the previously scanned original character (`code[i-1]`, `none` at offset
0), used for the escape checks. -/

/-- Scanner mode: `normal`, inside a `"…"` literal, inside a `'…'`
literal, inside a `//` comment, inside a `/* … */` comment. -/
inductive ScanMode : Type
  | normal : ScanMode
  | str : ScanMode
  | chr : ScanMode
  | line : ScanMode
  | block : ScanMode
deriving DecidableEq, Repr

/-- One pass of `_remove_comments_and_strings`:
* in `normal` mode a `"` or `'` not preceded by `\` opens a literal
  (emitted as a space), `//` and `/*` open comments (emitted as two
  spaces), anything else is copied;
* in a literal every character is emitted as a space, and the matching
  unescaped closing quote returns to `normal`;
* in a `//` comment characters become spaces until the newline, which is
  handed back to the `normal` state (the Python inner loop stops at the
  newline without consuming it);
* in a `/* … */` comment characters become spaces except newlines, which
  are kept; `*/` closes it; when a single character remains the Python
  guard `i < len(code) - 1` exits the loop and the main loop processes
  that character in `normal` state. -/
def stripScan : ScanMode → Option Char → List Char → List Char
  | _, _, [] => []
  | .normal, prev, c :: rest =>
    if c = '"' ∧ prev ≠ some '\\' then ' ' :: stripScan .str (some c) rest
    else if c = '\'' ∧ prev ≠ some '\\' then ' ' :: stripScan .chr (some c) rest
    else
      match rest with
      | r2 :: rest2 =>
        if c = '/' ∧ r2 = '/' then ' ' :: ' ' :: stripScan .line (some '/') rest2
        else if c = '/' ∧ r2 = '*' then ' ' :: ' ' :: stripScan .block (some '*') rest2
        else c :: stripScan .normal (some c) (r2 :: rest2)
      | [] => [c]
  | .str, prev, c :: rest =>
    if c = '"' ∧ prev ≠ some '\\' then ' ' :: stripScan .normal (some c) rest
    else ' ' :: stripScan .str (some c) rest
  | .chr, prev, c :: rest =>
    if c = '\'' ∧ prev ≠ some '\\' then ' ' :: stripScan .normal (some c) rest
    else ' ' :: stripScan .chr (some c) rest
  | .line, prev, c :: rest =>
    if c = '\n' then c :: stripScan .normal (some c) rest
    else ' ' :: stripScan .line (some c) rest
  | .block, prev, c1 :: c2 :: rest =>
    if c1 = '*' ∧ c2 = '/' then ' ' :: ' ' :: stripScan .normal (some '/') rest
    else (if c1 = '\n' then '\n' else ' ') :: stripScan .block (some c1) (c2 :: rest)
  | .block, prev, [c] =>
    if c = '"' ∧ prev ≠ some '\\' then [' ']
    else if c = '\'' ∧ prev ≠ some '\\' then [' ']
    else [c]

/-- `_remove_comments_and_strings` on a whole text. -/
def removeCommentsAndStrings (code : List Char) : List Char :=
  stripScan .normal none code

/-- Relation between an input character and the output character at the
same offset: the scan may write a newline only where the input has one. -/
def NlOnly (a b : Char) : Prop := b = '\n' → a = '\n'

theorem nlOnly_space (a : Char) : NlOnly a ' ' := by
  intro h
  exact absurd h (by decide)

theorem nlOnly_self (a : Char) : NlOnly a a := fun h => h

theorem nlOnly_nl_or_space (c : Char) : NlOnly c (if c = '\n' then '\n' else ' ') := by
  by_cases h : c = '\n'
  · rw [if_pos h]
    exact fun _ => h
  · rw [if_neg h]
    exact nlOnly_space c

theorem stripScan_nil (m : ScanMode) (p : Option Char) :
    stripScan m p [] = [] := by
  cases m <;> rfl

theorem stripScan_normal_cons (p : Option Char) (c : Char) (rest : List Char) :
    stripScan .normal p (c :: rest) =
      if c = '"' ∧ p ≠ some '\\' then ' ' :: stripScan .str (some c) rest
      else if c = '\'' ∧ p ≠ some '\\' then ' ' :: stripScan .chr (some c) rest
      else
        match rest with
        | r2 :: rest2 =>
          if c = '/' ∧ r2 = '/' then ' ' :: ' ' :: stripScan .line (some '/') rest2
          else if c = '/' ∧ r2 = '*' then ' ' :: ' ' :: stripScan .block (some '*') rest2
          else c :: stripScan .normal (some c) (r2 :: rest2)
        | [] => [c] := by
  cases rest <;> rfl

theorem stripScan_normal_two (p : Option Char) (c r2 : Char) (rest2 : List Char) :
    stripScan .normal p (c :: r2 :: rest2) =
      if c = '"' ∧ p ≠ some '\\' then ' ' :: stripScan .str (some c) (r2 :: rest2)
      else if c = '\'' ∧ p ≠ some '\\' then ' ' :: stripScan .chr (some c) (r2 :: rest2)
      else if c = '/' ∧ r2 = '/' then ' ' :: ' ' :: stripScan .line (some '/') rest2
      else if c = '/' ∧ r2 = '*' then ' ' :: ' ' :: stripScan .block (some '*') rest2
      else c :: stripScan .normal (some c) (r2 :: rest2) := rfl

theorem stripScan_normal_one (p : Option Char) (c : Char) :
    stripScan .normal p [c] =
      if c = '"' ∧ p ≠ some '\\' then ' ' :: stripScan .str (some c) []
      else if c = '\'' ∧ p ≠ some '\\' then ' ' :: stripScan .chr (some c) []
      else [c] := rfl

theorem stripScan_str_cons (p : Option Char) (c : Char) (rest : List Char) :
    stripScan .str p (c :: rest) =
      if c = '"' ∧ p ≠ some '\\' then ' ' :: stripScan .normal (some c) rest
      else ' ' :: stripScan .str (some c) rest := by
  cases rest <;> rfl

theorem stripScan_chr_cons (p : Option Char) (c : Char) (rest : List Char) :
    stripScan .chr p (c :: rest) =
      if c = '\'' ∧ p ≠ some '\\' then ' ' :: stripScan .normal (some c) rest
      else ' ' :: stripScan .chr (some c) rest := by
  cases rest <;> rfl

theorem stripScan_line_cons (p : Option Char) (c : Char) (rest : List Char) :
    stripScan .line p (c :: rest) =
      if c = '\n' then c :: stripScan .normal (some c) rest
      else ' ' :: stripScan .line (some c) rest := by
  cases rest <;> rfl

theorem stripScan_block_two (p : Option Char) (c1 c2 : Char) (rest : List Char) :
    stripScan .block p (c1 :: c2 :: rest) =
      if c1 = '*' ∧ c2 = '/' then ' ' :: ' ' :: stripScan .normal (some '/') rest
      else (if c1 = '\n' then '\n' else ' ') :: stripScan .block (some c1) (c2 :: rest) := by
  rfl

theorem stripScan_block_one (p : Option Char) (c : Char) :
    stripScan .block p [c] =
      if c = '"' ∧ p ≠ some '\\' then [' ']
      else if c = '\'' ∧ p ≠ some '\\' then [' ']
      else [c] := by
  rfl

theorem stripScan_forall2 (mode : ScanMode) (prev : Option Char)
    (cs : List Char) : List.Forall₂ NlOnly cs (stripScan mode prev cs) := by
  induction mode, prev, cs using stripScan.induct with
  | case1 m p => rw [stripScan_nil]; exact List.Forall₂.nil
  | case2 prev c rest h ih =>
    rw [stripScan_normal_cons, if_pos h]
    exact List.Forall₂.cons (nlOnly_space _) ih
  | case3 prev c rest hn h ih =>
    rw [stripScan_normal_cons, if_neg hn, if_pos h]
    exact List.Forall₂.cons (nlOnly_space _) ih
  | case4 prev c hn1 hn2 r2 rest2 h ih =>
    rw [stripScan_normal_two, if_neg hn1, if_neg hn2, if_pos h]
    exact List.Forall₂.cons (nlOnly_space _) (List.Forall₂.cons (nlOnly_space _) ih)
  | case5 prev c hn1 hn2 r2 rest2 hn3 h ih =>
    rw [stripScan_normal_two, if_neg hn1, if_neg hn2, if_neg hn3, if_pos h]
    exact List.Forall₂.cons (nlOnly_space _) (List.Forall₂.cons (nlOnly_space _) ih)
  | case6 prev c hn1 hn2 r2 rest2 hn3 hn4 ih =>
    rw [stripScan_normal_two, if_neg hn1, if_neg hn2, if_neg hn3, if_neg hn4]
    exact List.Forall₂.cons (nlOnly_self _) ih
  | case7 prev c hn1 hn2 =>
    rw [stripScan_normal_one, if_neg hn1, if_neg hn2]
    exact List.Forall₂.cons (nlOnly_self _) List.Forall₂.nil
  | case8 prev c rest h ih =>
    rw [stripScan_str_cons, if_pos h]
    exact List.Forall₂.cons (nlOnly_space _) ih
  | case9 prev c rest hn ih =>
    rw [stripScan_str_cons, if_neg hn]
    exact List.Forall₂.cons (nlOnly_space _) ih
  | case10 prev c rest h ih =>
    rw [stripScan_chr_cons, if_pos h]
    exact List.Forall₂.cons (nlOnly_space _) ih
  | case11 prev c rest hn ih =>
    rw [stripScan_chr_cons, if_neg hn]
    exact List.Forall₂.cons (nlOnly_space _) ih
  | case12 prev rest ih =>
    rw [stripScan_line_cons, if_pos rfl]
    exact List.Forall₂.cons (nlOnly_self _) ih
  | case13 prev c rest hn ih =>
    rw [stripScan_line_cons, if_neg hn]
    exact List.Forall₂.cons (nlOnly_space _) ih
  | case14 prev c1 c2 rest h ih =>
    rw [stripScan_block_two, if_pos h]
    exact List.Forall₂.cons (nlOnly_space _) (List.Forall₂.cons (nlOnly_space _) ih)
  | case15 prev c1 c2 rest hn ih =>
    rw [stripScan_block_two, if_neg hn]
    exact List.Forall₂.cons (nlOnly_nl_or_space _) ih
  | case16 prev c h =>
    rw [stripScan_block_one, if_pos h]
    exact List.Forall₂.cons (nlOnly_space _) List.Forall₂.nil
  | case17 prev c hn h =>
    rw [stripScan_block_one, if_neg hn, if_pos h]
    exact List.Forall₂.cons (nlOnly_space _) List.Forall₂.nil
  | case18 prev c hn1 hn2 =>
    rw [stripScan_block_one, if_neg hn1, if_neg hn2]
    exact List.Forall₂.cons (nlOnly_self _) List.Forall₂.nil

theorem forall2_getD {R : Char → Char → Prop} (hsp : R ' ' ' ')
    {l₁ l₂ : List Char} (h : List.Forall₂ R l₁ l₂) :
    ∀ i : Nat, R (l₁.getD i ' ') (l₂.getD i ' ') := by
  induction h with
  | nil => intro i; simpa using hsp
  | cons hr _ ih =>
    intro i
    cases i with
    | zero => simpa using hr
    | succ j => simpa using ih j

/-- C3 (amended): for every input text the normalizer's output has exactly
the same character length, and every newline of the output stands at a
position where the input also has a newline (the scan never creates a
newline).  The converse fails: a newline inside a string or character
literal is blanked to a space, so line count is preserved only for inputs
without such newlines. -/
theorem removeComments_length_and_newlines (code : List Char) :
    (removeCommentsAndStrings code).length = code.length ∧
      ∀ i : Nat, (removeCommentsAndStrings code).getD i ' ' = '\n' →
        code.getD i ' ' = '\n' := by
  have h := stripScan_forall2 .normal none code
  constructor
  · exact (List.Forall₂.length_eq h).symm
  · intro i
    exact forall2_getD (fun hsp => hsp) h i

/-- Witness for C3: on `"a" ++ newline ++ "// x"` the stripped text keeps
its length and its newline. -/
theorem removeComments_length_and_newlines_witness :
    (removeCommentsAndStrings ['a', '\n', '/', '/', 'x']).length
        = (['a', '\n', '/', '/', 'x'] : List Char).length ∧
      (['a', '\n', '/', '/', 'x'] : List Char).getD 1 ' ' = '\n' := by
  refine ⟨(removeComments_length_and_newlines ['a', '\n', '/', '/', 'x']).1, ?_⟩
  exact (removeComments_length_and_newlines ['a', '\n', '/', '/', 'x']).2 1 (by decide)

/-- Counterexample to C3 as stated: the three-character input `"` `\n` `"`
(a newline inside a string literal) has one newline and two lines, but the
normalizer blanks the newline, yielding an output with zero newlines — the
line count and newline positions are not preserved for every input. -/
theorem removeComments_newline_counterexample :
    removeCommentsAndStrings ['"', '\n', '"'] = [' ', ' ', ' '] ∧
      (['"', '\n', '"'] : List Char).count '\n' = 1 ∧
      (removeCommentsAndStrings ['"', '\n', '"']).count '\n' = 0 := by
  decide

/-! ## Call graph (`analyzer/codebase_reviewer.py`, `CallGraphAnalyzer`)

The `func_def` pattern
`^(?:static\s+)?(?:inline\s+)?(?:const\s+)?(\w+(?:\s*\*)*)\s+(\w+)\s*\(([^)]*)\)\s*\{`
and the `func_call` pattern `\b(\w+)\s*\(` are embedded as deterministic
matchers over `List Char`; the optional modifier groups keep the regex's
try-with-then-without alternative order. -/

/-- Python `\s` on the ASCII text handled by the tool. -/
def isPySpace (c : Char) : Bool :=
  c = ' ' || c = '\t' || c = '\n' || c = '\r' || c = '\x0b' || c = '\x0c'

/-- Python `str.strip()` (both ends, `\s` characters). -/
def pyStrip (s : String) : String :=
  (((s.toList.dropWhile isPySpace).reverse.dropWhile isPySpace).reverse).asString

/-- `(?:kw\s+)?` taken positively: the keyword must be followed by at least
one whitespace character, which is consumed greedily with it. -/
def matchKeyword (kw : List Char) (cs : List Char) : Option (List Char) :=
  if kw.isPrefixOf cs then
    match cs.drop kw.length with
    | d :: rest =>
      if isPySpace d then some (rest.dropWhile isPySpace) else none
    | [] => none
  else none

/-- `(?:\s*\*)*`, greedy: consume a run of `\s*` followed by `*` as long as
possible, giving back the whitespace of a failed last iteration.  Returns
the consumed text and the remaining input. -/
def starScan : List Char → List Char × List Char
  | [] => ([], [])
  | c :: rest =>
    if isPySpace c then
      match starScan rest with
      | ([], _) => ([], c :: rest)
      | (t, r) => (c :: t, r)
    else if c = '*' then
      match starScan rest with
      | (t, r) => ('*' :: t, r)
    else ([], c :: rest)

/-- The mandatory part of the `func_def` pattern after the optional
modifiers: `(\w+(?:\s*\*)*)\s+(\w+)\s*\(([^)]*)\)\s*\{`.  Returns the three
capture groups and the input remaining after the `{`. -/
def matchFuncDefCore (cs : List Char) : Option (String × String × String × List Char) :=
  let w := cs.takeWhile isWordChar
  if w.isEmpty then none
  else
    let r1 := cs.dropWhile isWordChar
    let (stars, r2) := starScan r1
    if (r2.takeWhile isPySpace).isEmpty then none
    else
      let r3 := r2.dropWhile isPySpace
      let nm := r3.takeWhile isWordChar
      if nm.isEmpty then none
      else
        let r4 := r3.dropWhile isWordChar
        match r4.dropWhile isPySpace with
        | '(' :: r6 =>
          let ps := r6.takeWhile (fun c => c ≠ ')')
          match r6.dropWhile (fun c => c ≠ ')') with
          | ')' :: r7 =>
            (match r7.dropWhile isPySpace with
             | '{' :: r9 => some ((w ++ stars).asString, nm.asString, ps.asString, r9)
             | _ => none)
          | _ => none
        | _ => none

/-- The three optional modifier groups, in the regex's greedy alternative
order: every combination of consuming/skipping `static\s+`, `inline\s+`,
`const\s+`, with "consume" tried first. -/
def modifierCombos : List (Bool × Bool × Bool) :=
  [(true, true, true), (true, true, false), (true, false, true), (true, false, false),
   (false, true, true), (false, true, false), (false, false, true), (false, false, false)]

def applyModifiers (s i c : Bool) (cs : List Char) : Option (List Char) := do
  let cs1 ← if s then matchKeyword "static".toList cs else some cs
  let cs2 ← if i then matchKeyword "inline".toList cs1 else some cs1
  if c then matchKeyword "const".toList cs2 else some cs2

/-- `PATTERNS['func_def']` matched at the start of the input (used both by
`finditer` at every line start and by `.match(line)`). -/
def matchFuncDef (cs : List Char) : Option (String × String × String × List Char) :=
  modifierCombos.findSome? (fun m =>
    (applyModifiers m.1 m.2.1 m.2.2 cs).bind matchFuncDefCore)

/-- `PATTERNS['func_def'].finditer(content)` with the `^` (MULTILINE)
anchor: attempt a match at every line start, resuming after each match
(whose last consumed character is the `{`, never a line start).  The fuel
is the input length; every step consumes at least one character. -/
def findDefsAux : Nat → Bool → List Char → List (String × String × String)
  | 0, _, _ => []
  | _ + 1, _, [] => []
  | fuel + 1, atStart, c :: rest =>
    if atStart then
      match matchFuncDef (c :: rest) with
      | some (rt, nm, ps, rem) => (rt, nm, ps) :: findDefsAux fuel false rem
      | none => findDefsAux fuel (c = '\n') rest
    else findDefsAux fuel (c = '\n') rest

/-- All `func_def` matches of a file's content, in textual order. -/
def findDefs (content : String) : List (String × String × String) :=
  findDefsAux content.toList.length true content.toList

/-- `PATTERNS['func_call'].finditer(line)`: every `\b(\w+)\s*\(` capture,
resuming after the consumed `(`. -/
def findCallIdentsAux : Nat → Bool → List Char → List String
  | 0, _, _ => []
  | _ + 1, _, [] => []
  | fuel + 1, prevWord, c :: rest =>
    if ¬prevWord ∧ isWordChar c then
      let run := (c :: rest).takeWhile isWordChar
      match ((c :: rest).dropWhile isWordChar).dropWhile isPySpace with
      | '(' :: r2 => run.asString :: findCallIdentsAux fuel false r2
      | _ => findCallIdentsAux fuel true rest
    else findCallIdentsAux fuel (isWordChar c) rest

def findCallIdents (line : String) : List String :=
  findCallIdentsAux line.toList.length false line.toList

/-- `C_KEYWORDS`: names never treated as functions. -/
def cKeywords : List String :=
  ["if", "else", "for", "while", "do", "switch", "case", "default",
   "return", "break", "continue", "goto", "sizeof", "typeof",
   "struct", "union", "enum", "typedef", "const", "static", "extern",
   "inline", "volatile", "register", "auto", "signed", "unsigned",
   "void", "char", "short", "int", "long", "float", "double",
   "NULL", "true", "false"]

/-- One entry of the `self.functions` map. -/
structure FuncInfo where
  file : String
  return_type : String
  params : String
  calls : List String
  called_by : List String
deriving DecidableEq, Repr

/-- The `CallGraphAnalyzer` state: the name-keyed function map, the
per-file definition lists, and the `call_edges` list. -/
structure CallGraphState where
  functions : String → Option FuncInfo
  file_functions : String → List String
  call_edges : List (String × String)

def CallGraphState.empty : CallGraphState :=
  { functions := fun _ => none, file_functions := fun _ => [], call_edges := [] }

/-- One `func_def` match handled by `_find_definitions`: keyword names are
skipped, anything else overwrites `self.functions[name]` and is appended
to the file's definition list.  The groups are `.strip()`ed as in the
source. -/
def findDefinitionsStep (filePath : String) (st : CallGraphState)
    (d : String × String × String) : CallGraphState :=
  if pyStrip d.2.1 ∈ cKeywords then st
  else
    { st with
      functions := fun k =>
        if k = pyStrip d.2.1 then
          some ⟨filePath, pyStrip d.1, pyStrip d.2.2, [], []⟩
        else st.functions k
      file_functions := fun k =>
        if k = filePath then st.file_functions k ++ [pyStrip d.2.1]
        else st.file_functions k }

/-- `_find_definitions` over one file's content. -/
def findDefinitions (filePath : String) (content : String)
    (st : CallGraphState) : CallGraphState :=
  (findDefs content).foldl (findDefinitionsStep filePath) st

/-- A scanned file for the call-graph pass: `(rel_path, is_header,
content)`. -/
abbrev CGFile := String × Bool × String

/-- First pass of `CallGraphAnalyzer.scan`: find every function definition
in every file. -/
def callGraphPass1 (files : List CGFile) : CallGraphState :=
  files.foldl (fun st f => findDefinitions f.1 f.2.2 st) CallGraphState.empty

/-- One call-shaped token inside the current function `cf`: skip keywords
and self-recursion, record the edge only when the callee is a known
function (both `calls`/`called_by` set additions and the edge append). -/
def recordCall (cf : String) (st : CallGraphState) (callee : String) :
    CallGraphState :=
  if callee ∈ cKeywords then st
  else if callee = cf then st
  else
    match st.functions callee with
    | some _ =>
      { st with
        functions := fun k =>
          if k = cf then
            (st.functions k).map (fun fi => { fi with calls := insertD fi.calls callee })
          else if k = callee then
            (st.functions k).map (fun fi => { fi with called_by := insertD fi.called_by cf })
          else st.functions k
        call_edges := st.call_edges ++ [(cf, callee)] }
    | none => st

/-- One line of `_find_calls`: a line that starts a function definition
only updates the current function (its own tokens are never scanned —
the Python loop `continue`s); other lines are scanned for calls once a
current function exists. -/
def findCallsLine (acc : CallGraphState × Option String) (line : String) :
    CallGraphState × Option String :=
  match matchFuncDef line.toList with
  | some (_, nm, _, _) => (acc.1, some (pyStrip nm))
  | none =>
    match acc.2 with
    | none => acc
    | some cf => ((findCallIdents line).foldl (recordCall cf) acc.1, some cf)

/-- Python `content.split('\n')`: split at every newline, keeping empty
parts (structural accumulator over the character list). -/
def splitLinesAux (acc : List Char) : List Char → List String
  | [] => [acc.reverse.asString]
  | c :: rest =>
    if c = '\n' then acc.reverse.asString :: splitLinesAux [] rest
    else splitLinesAux (c :: acc) rest

def splitLines (content : String) : List String :=
  splitLinesAux [] content.toList

/-- `_find_calls` over one file's content (`content.split('\n')`). -/
def findCalls (content : String) (st : CallGraphState) : CallGraphState :=
  ((splitLines content).foldl findCallsLine (st, none)).1

/-- `CallGraphAnalyzer.scan`: pass 1 over every file, pass 2 over the
non-header files. -/
def callGraphScan (files : List CGFile) : CallGraphState :=
  files.foldl (fun st f => if f.2.1 then st else findCalls f.2.2 st)
    (callGraphPass1 files)

/-- Counterexample to C2 as stated: in a non-header file whose text is
exactly `void Foo() { Bar(); }` and `void Bar() {}` on two lines, both
definitions enter the Phase-1 map, but `_find_calls` sets the current
function on the definition line and `continue`s, so the call `Bar()` —
which sits on Foo's own definition line — is never scanned: no CallEdge
is recorded and both sets stay empty. -/
theorem scenarioD_one_line_no_edge :
    findDefs "void Foo() \x7b Bar(); \x7d\nvoid Bar() \x7b\x7d"
        = [("void", "Foo", ""), ("void", "Bar", "")] ∧
      (callGraphScan [("a.c", false, "void Foo() \x7b Bar(); \x7d\nvoid Bar() \x7b\x7d")]).call_edges
        = [] ∧
      ((callGraphScan [("a.c", false, "void Foo() \x7b Bar(); \x7d\nvoid Bar() \x7b\x7d")]).functions
          "Foo").map (fun fi => fi.calls) = some [] ∧
      ((callGraphScan [("a.c", false, "void Foo() \x7b Bar(); \x7d\nvoid Bar() \x7b\x7d")]).functions
          "Bar").map (fun fi => fi.called_by) = some [] := by
  decide

/-- C2 (amended): when the call `Bar()` stands on a line after the line of
`Foo`'s definition header (body opened on its own line), the call-graph
builder records the CallEdge (Foo, Bar): `Bar ∈ Foo.calls` and
`Foo ∈ Bar.called_by`. -/
theorem scenarioD_body_line_edge :
    (callGraphScan [("a.c", false, "void Foo() \x7b\n    Bar();\n\x7d\nvoid Bar() \x7b\x7d")]).call_edges
        = [("Foo", "Bar")] ∧
      ((callGraphScan [("a.c", false, "void Foo() \x7b\n    Bar();\n\x7d\nvoid Bar() \x7b\x7d")]).functions
          "Foo").map (fun fi => fi.calls) = some ["Bar"] ∧
      ((callGraphScan [("a.c", false, "void Foo() \x7b\n    Bar();\n\x7d\nvoid Bar() \x7b\x7d")]).functions
          "Bar").map (fun fi => fi.called_by) = some ["Foo"] := by
  decide

/-! ## Last-definition-wins for the name-keyed function map (C7) -/

/-- `_find_definitions` restated on pre-stripped, file-tagged tuples
`(name, file, return_type, params)`; definitionally equal to
`findDefinitionsStep` after tagging. -/
def defStep (st : CallGraphState) (d : String × String × String × String) :
    CallGraphState :=
  if d.1 ∈ cKeywords then st
  else
    { st with
      functions := fun k =>
        if k = d.1 then some ⟨d.2.1, d.2.2.1, d.2.2.2, [], []⟩
        else st.functions k
      file_functions := fun k =>
        if k = d.2.1 then st.file_functions k ++ [d.1]
        else st.file_functions k }

/-- Tag one regex match of a file with stripping, as `_find_definitions`
reads it. -/
def tagDef (filePath : String) (d : String × String × String) :
    String × String × String × String :=
  (pyStrip d.2.1, filePath, pyStrip d.1, pyStrip d.2.2)

/-- The whole definition-scan event sequence: every match of every file,
in scan order. -/
def allDefs (files : List CGFile) : List (String × String × String × String) :=
  files.flatMap (fun f => (findDefs f.2.2).map (tagDef f.1))

theorem findDefinitions_eq_foldl (filePath content : String)
    (st : CallGraphState) :
    findDefinitions filePath content st
      = ((findDefs content).map (tagDef filePath)).foldl defStep st := by
  unfold findDefinitions
  rw [List.foldl_map]
  rfl

theorem callGraphPass1_eq_foldl (files : List CGFile) (st : CallGraphState) :
    files.foldl (fun st f => findDefinitions f.1 f.2.2 st) st
      = (allDefs files).foldl defStep st := by
  induction files generalizing st with
  | nil => rfl
  | cons f rest ih =>
    simp only [List.foldl_cons, allDefs, List.flatMap_cons, List.foldl_append]
    rw [ih, findDefinitions_eq_foldl]
    rfl

theorem defStep_lookup (ds : List (String × String × String × String))
    (st : CallGraphState) (n : String) (hn : n ∉ cKeywords) :
    (ds.foldl defStep st).functions n
      = match (ds.filter (fun d => d.1 = n)).getLast? with
        | some d => some ⟨d.2.1, d.2.2.1, d.2.2.2, [], []⟩
        | none => st.functions n := by
  induction ds using List.reverseRecOn generalizing st with
  | nil => rfl
  | append_singleton init d ih =>
    rw [List.foldl_append, List.foldl_cons, List.foldl_nil, List.filter_append]
    by_cases hd : d.1 = n
    · have hdk : d.1 ∉ cKeywords := by rw [hd]; exact hn
      have hfun : (defStep (init.foldl defStep st) d).functions
          = fun k =>
              if k = d.1 then some ⟨d.2.1, d.2.2.1, d.2.2.2, [], []⟩
              else (init.foldl defStep st).functions k := by
        unfold defStep
        rw [if_neg hdk]
      simp only [hfun]
      rw [if_pos hd.symm]
      have hone : List.filter (fun x => decide (x.1 = n)) [d] = [d] := by
        simp [hd]
      rw [hone, List.getLast?_append_of_ne_nil _ (by simp : [d] ≠ [])]
      rfl
    · have hfilter : List.filter (fun x => decide (x.1 = n)) [d] = [] := by
        simp [hd]
      rw [hfilter, List.append_nil]
      by_cases hk : d.1 ∈ cKeywords
      · have hstep : defStep (init.foldl defStep st) d = init.foldl defStep st := by
          unfold defStep
          rw [if_pos hk]
        rw [hstep, ih st]
      · have hfun : (defStep (init.foldl defStep st) d).functions
            = fun k =>
                if k = d.1 then some ⟨d.2.1, d.2.2.1, d.2.2.2, [], []⟩
                else (init.foldl defStep st).functions k := by
          unfold defStep
          rw [if_neg hk]
        simp only [hfun]
        rw [if_neg (fun h => hd h.symm)]
        exact ih st

/-- C7: the function-definition map is keyed by bare name and the
definition scanned last wins — for every list of scanned files (hence
every scan order), the Phase-1 map at a non-keyword name `n` holds exactly
the data of the last definition event named `n`, with empty call sets. -/
theorem functions_last_def_wins (files : List CGFile) (n : String)
    (hn : n ∉ cKeywords) :
    (callGraphPass1 files).functions n
      = match ((allDefs files).filter (fun d => d.1 = n)).getLast? with
        | some d => some ⟨d.2.1, d.2.2.1, d.2.2.2, [], []⟩
        | none => none := by
  unfold callGraphPass1
  rw [callGraphPass1_eq_foldl, defStep_lookup _ _ _ hn]
  rfl

/-- Witness for C7: `foo` defined in `a.c` and again in `b.c`; the map
holds the `b.c` definition (return type `char`), the one scanned last. -/
theorem functions_last_def_wins_witness :
    ("foo" ∉ cKeywords) ∧
      (callGraphPass1 [("a.c", false, "int foo() \x7b \x7d"), ("b.c", false, "char foo() \x7b \x7d")]).functions "foo"
        = some ⟨"b.c", "char", "", [], []⟩ := by
  refine ⟨by decide, ?_⟩
  rw [functions_last_def_wins
    [("a.c", false, "int foo() \x7b \x7d"), ("b.c", false, "char foo() \x7b \x7d")] "foo" (by decide)]
  decide

/-! ## Cycle detection (`scripts/cdep_analyzer.py`, `find_cycles`)

`find_cycles` runs a depth-first search with shared mutable `visited`,
`rec_stack` and `path`; when a back edge is found it returns the `path`
slice from the repeated node, and the recursion propagates that return
value immediately — without executing the `path.pop()` /
`rec_stack.remove(node)` cleanup of the frames it unwinds.  The search is
embedded as a fuel-indexed step function (`Sum.inl node` = the body of
`dfs(node)`, `Sum.inr (node, remaining)` = its neighbor loop); the fuel
chosen in `findCycles` exceeds the number of micro-steps of any run, so it
is never exhausted (this mirrors the Python guarantee that recursion
strictly shrinks the unvisited set). -/

/-- The shared mutable state of `find_cycles`. -/
structure DfsState where
  visited : List String
  recStack : List String
  path : List String
deriving DecidableEq, Repr

/-- One activation of the recursive `dfs`, fuel-indexed.
`Sum.inl node`: enter `dfs(node)` (mark visited, push on the recursion
stack and path, start the neighbor loop).  `Sum.inr (node, nbs)`: the
neighbor loop of `dfs(node)` with `nbs` still to process; on exhaustion
the frame's cleanup pops `path` and removes `node` from `rec_stack`; a
cycle return skips every pending cleanup, exactly like the Python early
`return`. -/
def dfsStep (deps : String → List String) :
    Nat → Sum String (String × List String) → DfsState →
      Option (List String) × DfsState
  | 0, _, st => (none, st)
  | fuel + 1, Sum.inl node, st =>
    dfsStep deps fuel (Sum.inr (node, deps node))
      { visited := insertD st.visited node
        recStack := insertD st.recStack node
        path := st.path ++ [node] }
  | fuel + 1, Sum.inr (node, []), st =>
    (none, { st with path := st.path.dropLast, recStack := st.recStack.erase node })
  | fuel + 1, Sum.inr (node, nb :: rest), st =>
    if nb ∉ st.visited then
      match dfsStep deps fuel (Sum.inl nb) st with
      | (some cyc, st') => (some cyc, st')
      | (none, st') => dfsStep deps fuel (Sum.inr (node, rest)) st'
    else if nb ∈ st.recStack then
      (some (st.path.drop (st.path.indexOf nb) ++ [nb]), st)
    else dfsStep deps fuel (Sum.inr (node, rest)) st

/-- Python string `<`: lexicographic comparison of code points. -/
def charListLt : List Char → List Char → Bool
  | [], [] => false
  | [], _ :: _ => true
  | _ :: _, [] => false
  | a :: as, b :: bs =>
    if a.val < b.val then true
    else if b.val < a.val then false
    else charListLt as bs

def strLt (a b : String) : Bool := charListLt a.toList b.toList

/-- Python `min(…)` over a nonempty list of strings (first minimum on
ties, lexicographic order). -/
def minString : List String → String
  | [] => ""
  | x :: xs => xs.foldl (fun a b => if strLt b a then b else a) x

/-- Normalize a found cycle:
`min_idx = cycle.index(min(cycle[:-1]))`;
`normalized = cycle[min_idx:-1] + cycle[:min_idx] + [cycle[min_idx]]`. -/
def normalizeCycle (cycle : List String) : List String :=
  let body := cycle.dropLast
  let m := minString body
  let minIdx := body.indexOf m
  body.drop minIdx ++ body.take minIdx ++ [m]

/-- `find_cycles`: run the DFS from every unvisited root, sharing
`visited`/`rec_stack`/`path` across roots, normalizing and deduplicating
each returned cycle.  The fuel `2·|files| + Σ out-degrees + 1` bounds the
micro-steps of any single root's search. -/
def findCycles (files : List String) (deps : String → List String) :
    List (List String) :=
  let fuel := 2 * files.length + (files.map (fun n => (deps n).length)).sum + 1
  (files.foldl
    (fun (acc : DfsState × List (List String)) node =>
      if node ∈ acc.1.visited then acc
      else
        match dfsStep deps fuel (Sum.inl node) acc.1 with
        | (some cycle, st') =>
          let normalized := normalizeCycle cycle
          (st', if normalized ∈ acc.2 then acc.2 else acc.2 ++ [normalized])
        | (none, st') => (st', acc.2))
    (⟨[], [], []⟩, [])).2

/-- The four-file include graph `a.h → b.h → a.h`, `c.h → d.h → a.h`. -/
def cycleBugDeps : String → List String := fun n =>
  if n = "a.h" then ["b.h"]
  else if n = "b.h" then ["a.h"]
  else if n = "c.h" then ["d.h"]
  else if n = "d.h" then ["a.h"]
  else []

/-- C1 (code bug): on the graph `a.h ⇄ b.h`, `c.h → d.h → a.h`, scanned in
the order `a.h, b.h, c.h, d.h`, `find_cycles` first returns the true cycle
`[a.h, b.h, a.h]`, but — because the early cycle return skipped the
`path`/`rec_stack` cleanup — the search from the root `c.h` then returns
`[a.h, b.h, c.h, d.h, a.h]`, whose consecutive pair `(b.h, c.h)` is not an
edge of the graph: the returned list violates the cycle-validity
guarantee. -/
theorem find_cycles_invalid_walk :
    findCycles ["a.h", "b.h", "c.h", "d.h"] cycleBugDeps
        = [["a.h", "b.h", "a.h"], ["a.h", "b.h", "c.h", "d.h", "a.h"]] ∧
      ¬ ("c.h" ∈ cycleBugDeps "b.h") := by
  decide

end CAnalyzer
